import Mathlib

set_option maxHeartbeats 1000000

/-! Shallow embedding of the `arch-cli` demo-provisioning pipeline:
`src/demo/build.rs` (frontend environment-file configuration),
`src/demo/setup.rs` (provisioning orchestrator, collision-free key naming,
RPC-endpoint resolution) and `templates/demo/program/src/pubkey.rs`
(the 32-byte identifier value type).  Rust strings are embedded as
`List Char`; machine integers as `Nat` with explicit `% 2 ^ 64` where
u64 overflow matters; fallible operations return `Option`/`Except`. -/

/-- Embeds the Rust prefix test used by `str::replace` matching and
`str::strip_prefix`: `p` is a prefix of `s`. -/
def listStartsWith : List Char → List Char → Bool
  | [], _ => true
  | _ :: _, [] => false
  | a :: as, b :: bs => a == b && listStartsWith as bs

/-- Substring occurrence test: some suffix of `s` starts with `p`. -/
def occursIn (p : List Char) : List Char → Bool
  | [] => listStartsWith p []
  | c :: cs => listStartsWith p (c :: cs) || occursIn p cs

/-- Worker for Rust `str::replace`: replaces every non-overlapping
occurrence of `p` by `r`, scanning left to right and continuing
after each replaced occurrence.  (All patterns in the source are
non-empty string literals.) -/
def replaceAllGo (p r : List Char) : Nat → List Char → List Char
  | _, [] => []
  | skip + 1, _ :: cs => replaceAllGo p r skip cs
  | 0, c :: cs =>
    if listStartsWith p (c :: cs) then
      r ++ replaceAllGo p r (p.length - 1) cs
    else c :: replaceAllGo p r 0 cs

/-- Embeds Rust `str::replace` through the worker above: `skip > 0` means
the scanner is still passing over the remainder of a replaced occurrence
without looking for matches there. -/
def replaceAll (p r s : List Char) : List Char := replaceAllGo p r 0 s

def PAT_PROGRAM : List Char := "VITE_PROGRAM_PUBKEY=".data

def PAT_WALL : List Char := "VITE_WALL_ACCOUNT_PUBKEY=".data

def PAT_NETWORK : List Char := "VITE_NETWORK=".data

def PAT_RPC : List Char := "VITE_RPC_URL=".data

/-- Embeds `Regex::new("VITE_RPC_URL=.*").replace(content, "VITE_RPC_URL=<url>")`:
replaces the leftmost match of `VITE_RPC_URL=` followed by the rest of the
line (`.*` does not match a newline) with `VITE_RPC_URL=` followed by `url`.
The replacement text is inserted literally; the source never passes a
replacement containing the regex-replacement escape `$`. -/
def replaceFirstRpc (url : List Char) : List Char → List Char
  | [] => []
  | c :: cs =>
    if listStartsWith PAT_RPC (c :: cs) then
      PAT_RPC ++ url ++ (((c :: cs).drop PAT_RPC.length).dropWhile fun ch => ch ≠ '\n')
    else c :: replaceFirstRpc url cs

/-- Embeds `build_frontend` (src/demo/build.rs): the transformation applied
to the contents of `app/frontend/.env`.  (Reading and writing the file are
I/O shell around this pure content transformation.) -/
def build_frontend (rpc_url : Option (List Char))
    (program_pubkey wall_pubkey network : List Char)
    (env_content : List Char) : List Char :=
  let e1 := replaceAll PAT_PROGRAM (PAT_PROGRAM ++ program_pubkey) env_content
  let e2 := replaceAll PAT_WALL (PAT_WALL ++ wall_pubkey) e1
  let e3 := replaceAll PAT_NETWORK (PAT_NETWORK ++ network) e2
  match rpc_url with
  | some url => replaceFirstRpc url e3
  | none => e3

/-- Splits a character list at every `'\n'`; the result is always non-empty
and its elements contain no `'\n'`. -/
def splitLines : List Char → List (List Char)
  | [] => [[]]
  | c :: cs =>
    if c = '\n' then [] :: splitLines cs
    else
      match splitLines cs with
      | [] => [[c]]
      | l :: ls => (c :: l) :: ls

/-- One step of Rust `str::lines`: a single trailing `'\r'` is stripped
from each split segment. -/
def stripCR (l : List Char) : List Char :=
  if l.getLast? = some '\r' then l.dropLast else l

/-- Embeds Rust `str::lines()`: split at `'\n'`, drop the final empty
segment produced by a trailing newline (or empty input), strip one
trailing `'\r'` per line. -/
def rustLines (s : List Char) : List (List Char) :=
  let parts := splitLines s
  (if parts.getLast? = some [] then parts.dropLast else parts).map stripCR

/-- Embeds Rust `str::strip_prefix`: `some` of the remainder when `l`
starts with `p`. -/
def stripKey (p l : List Char) : Option (List Char) :=
  if listStartsWith p l then some (l.drop p.length) else none

/-- Embeds setup.rs lines 100-104: the program identifier read from the
environment-file content (first line starting `VITE_PROGRAM_PUBKEY=`,
with that prefix removed; empty when no such line exists). -/
def extract_program_pubkey (env : List Char) : List Char :=
  ((rustLines env).findSome? (stripKey PAT_PROGRAM)).getD []

/-! Identifier value type (templates/demo/program/src/pubkey.rs).
`Pubkey` is a 32-byte array; bytes are `Nat` values (< 256 whenever they
come from the source's constructors). -/

structure Pubkey where
  bytes : List Nat
  len32 : bytes.length = 32

theorem Pubkey.ext' : ∀ {p q : Pubkey}, p.bytes = q.bytes → p = q
  | ⟨_, _⟩, ⟨_, _⟩, rfl => rfl

/-- Embeds `Pubkey::serialize`: the identity transform onto the 32 bytes. -/
def Pubkey.serialize (p : Pubkey) : List Nat := p.bytes

/-- Embeds `Pubkey::from_slice`: `tmp[..data.len()].copy_from_slice(data)`
on a zeroed 32-byte buffer.  When `data.len() > 32` the Rust slice index
`tmp[..data.len()]` is out of range and the call panics; the panic is
embedded as `none`. -/
def Pubkey.from_slice (data : List Nat) : Option Pubkey :=
  if h : data.length ≤ 32 then
    some ⟨data ++ List.replicate (32 - data.length) 0, by
      simp only [List.length_append, List.length_replicate]; omega⟩
  else none

/-- Embeds `Pubkey::system_program`: all zeros except the last byte 1. -/
def Pubkey.system_program : Pubkey :=
  ⟨List.replicate 31 0 ++ [1], by simp⟩

/-- Embeds `Pubkey::is_system_program`: byte equality with the sentinel. -/
def Pubkey.is_system_program (p : Pubkey) : Bool :=
  p.bytes == List.replicate 31 0 ++ [1]

/-- Embeds `u64::to_be_bytes`: the eight big-endian base-256 digits of a
u64 value. -/
def u64_be_bytes (i : Nat) : List Nat :=
  [i / 2 ^ 56 % 256, i / 2 ^ 48 % 256, i / 2 ^ 40 % 256, i / 2 ^ 32 % 256,
   i / 2 ^ 24 % 256, i / 2 ^ 16 % 256, i / 2 ^ 8 % 256, i % 256]

/-- Modelled from the spec: `crate::atomic_u64::AtomicU64::fetch_add(1)`
(the atomic_u64 module is not under src/).  The process-wide counter is a
u64 cell: `fetch_add` returns the old value and stores the successor,
wrapping modulo `2 ^ 64` as every Rust u64 atomic does.  The state is
threaded explicitly instead of living in a `static`. -/
def atomic_fetch_add (s : Nat) : Nat × Nat := (s, (s + 1) % 2 ^ 64)

/-- The counter starts at 1: `static I: AtomicU64 = AtomicU64::new(1)`. -/
def UNIQUE_COUNTER_INIT : Nat := 1

/-- Embeds `Pubkey::new_unique`: big-endian counter value in the leading
8 bytes, zeros elsewhere; returns the fresh identifier and the new
counter state. -/
def Pubkey.new_unique (s : Nat) : Pubkey × Nat :=
  let (i, s') := atomic_fetch_add s
  (⟨u64_be_bytes i ++ List.replicate 24 0, by simp [u64_be_bytes]⟩, s')

/-- The sequence of identifiers produced by `n` successive calls of
`Pubkey::new_unique` starting from counter state `s`. -/
def new_unique_list (s : Nat) : Nat → List Pubkey
  | 0 => []
  | n + 1 =>
    let (p, s') := Pubkey.new_unique s
    p :: new_unique_list s' n

/-- The identifier produced by a single `new_unique` call at counter
state `i`. -/
def mkUniquePk (i : Nat) : Pubkey := (Pubkey.new_unique i).1

/-- The counter state after `m` calls of `new_unique` starting at `s`. -/
def stateIter (s : Nat) : Nat → Nat
  | 0 => s
  | m + 1 => stateIter ((s + 1) % 2 ^ 64) m

/-- Big-endian base-256 digit list of width `w` (recursion-friendly form
of `u64_be_bytes`, used in proofs). -/
def beDigits : Nat → Nat → List Nat
  | 0, _ => []
  | w + 1, i => i / 256 ^ w % 256 :: beDigits w (i % 256 ^ w)

/-! Key registry and provisioning orchestrator (src/demo/setup.rs).
The registry primitives live outside src/, so they are modelled from the
spec's Key Registry contract (section 4.2): a registry is a persisted
list of records, each owning a name and the derived public identifier. -/

structure KeyRecord where
  name : List Char
  pubkey : List Char

/-- Modelled from the spec: `exists(name)` on the key registry — true iff
some record has the given name. -/
def key_name_exists (reg : List KeyRecord) (name : List Char) : Bool :=
  reg.any fun r => r.name == name

/-- Modelled from the spec: `nameFor(identifier)` — the name of the first
record whose derived public identifier matches, `none` (NotFound) when no
record matches. -/
def find_key_name_by_pubkey (reg : List KeyRecord) (pk : List Char) :
    Option (List Char) :=
  (reg.find? fun r => r.pubkey == pk).map fun r => r.name

/-- Modelled from the spec: `pubkeyFor(name)` — the derived public
identifier of the first record with the given name, `none` (NotFound)
when the name is absent. -/
def get_pubkey_from_name (name : List Char) (reg : List KeyRecord) :
    Option (List Char) :=
  (reg.find? fun r => r.name == name).map fun r => r.pubkey

/-- The candidate names probed by `create_unique_key_name`, in order:
`graffiti`, `graffiti_1`, `graffiti_2`, ....  the format call
renders the counter in decimal, i.e. `Nat.toDigits 10 k`. -/
def nameSeq : Nat → List Char
  | 0 => "graffiti".data
  | k + 1 => "graffiti_".data ++ Nat.toDigits 10 (k + 1)

/-- The `while key_name_exists` loop of `create_unique_key_name`
(setup.rs lines 185-193), with explicit fuel.  The registry is finite, so
`reg.length + 1` probes always reach an unoccupied name (proved below);
the source loop needs no fuel because it terminates for the same reason. -/
def create_unique_key_name_loop (reg : List KeyRecord) :
    List Char → Nat → Nat → List Char
  | name, _, 0 => name
  | name, counter, fuel + 1 =>
    if key_name_exists reg name then
      create_unique_key_name_loop reg
        ("graffiti_".data ++ Nat.toDigits 10 counter) (counter + 1) fuel
    else name

/-- Embeds `create_unique_key_name`: starts from `graffiti`, counter 1. -/
def create_unique_key_name (reg : List KeyRecord) : List Char :=
  create_unique_key_name_loop reg "graffiti".data 1 (reg.length + 1)

structure DemoStartArgs where
  rpc_url : Option String

/-- The configuration source, specified only through `get_string`:
a key-to-string partial mapping (`.ok()` of the Result). -/
def Config : Type := String → Option String

/-- Modelled from the spec: `common::constants::NODE1_ADDRESS`, the
built-in default node address (the constants module is not under src/;
the claims do not depend on the literal value). -/
def NODE1_ADDRESS : String := "node1-default-address"

/-- Embeds `get_rpc_url` (setup.rs lines 195-201): command-line argument,
else configured leader endpoint, else the built-in default. -/
def get_rpc_url (args : DemoStartArgs) (config : Config) : String :=
  (args.rpc_url.or (config "leader_rpc_endpoint")).getD NODE1_ADDRESS

inductive SetupError where
  | notFound : List Char → SetupError

/-- The data produced by a successful `setup_demo_environment` run:
the returned tuple components that the claims mention, the names passed
to `create_account` (in call order), and the environment content written
back by `build_frontend`. -/
structure SetupOutcome where
  program_pubkey : List Char
  wall_pubkey : List Char
  rpc_url : String
  created_accounts : List (List Char)
  env_written : List Char

def WALL_NAME : List Char := "graffiti_wall_state".data

/-- Steps 150-172 of setup.rs: reuse the `graffiti_wall_state` record if
it exists, otherwise create it (`create_account` is modelled from the
spec as appending a record whose identifier the external client mints).
Returns the wall identifier, the updated registry and the names created. -/
def setup_wall_step (reg : List KeyRecord) (mint : List Char → List Char) :
    Except SetupError (List Char × List KeyRecord × List (List Char)) :=
  if key_name_exists reg WALL_NAME then
    match get_pubkey_from_name WALL_NAME reg with
    | some w => .ok (w, reg, [])
    | none => .error (.notFound WALL_NAME)
  else
    match get_pubkey_from_name WALL_NAME (reg ++ [⟨WALL_NAME, mint WALL_NAME⟩]) with
    | some w => .ok (w, reg ++ [⟨WALL_NAME, mint WALL_NAME⟩], [WALL_NAME])
    | none => .error (.notFound WALL_NAME)

/-- Assembles the outcome and runs step 8 (frontend configuration). -/
def setup_finish (rpc_url network : String) (env : List Char)
    (program_pubkey wall_pubkey : List Char)
    (created : List (List Char)) : SetupOutcome :=
  { program_pubkey := program_pubkey
    wall_pubkey := wall_pubkey
    rpc_url := rpc_url
    created_accounts := created
    env_written :=
      build_frontend (some rpc_url.data) program_pubkey wall_pubkey
        network.data env }

/-- Embeds `setup_demo_environment` (setup.rs): the data flow of the
provisioning pipeline over explicit state.  Inputs: the command
arguments, the configuration, the current content of the active
environment file, the key registry, and `mint`, the external deployment
client's identifier assignment for newly created accounts (modelled from
the spec: `create_account` appends a record and may reach the network).
Filesystem materialization, the working-directory switch, program
deployment and activation are external effects with no bearing on the
claims and are not part of the data flow modelled here. -/
def setup_demo_environment (args : DemoStartArgs) (config : Config)
    (env_content : List Char) (reg : List KeyRecord)
    (mint : List Char → List Char) : Except SetupError SetupOutcome :=
  let network := (config "bitcoin.network").getD "regtest"
  let rpc_url := get_rpc_url args config
  let program_pubkey0 := extract_program_pubkey env_content
  if program_pubkey0 = [] then
    let name := create_unique_key_name reg
    let reg1 := reg ++ [⟨name, mint name⟩]
    match get_pubkey_from_name name reg1 with
    | none => .error (.notFound name)
    | some pk =>
      if key_name_exists reg1 name then
        match setup_wall_step reg1 mint with
        | .error e => .error e
        | .ok (w, _, createdW) =>
          .ok (setup_finish rpc_url network env_content pk w
            ([name] ++ createdW))
      else .error (.notFound name)
  else
    match find_key_name_by_pubkey reg program_pubkey0 with
    | none => .error (.notFound program_pubkey0)
    | some name =>
      if key_name_exists reg name then
        match setup_wall_step reg mint with
        | .error e => .error e
        | .ok (w, _, createdW) =>
          .ok (setup_finish rpc_url network env_content program_pubkey0 w
            createdW)
      else .error (.notFound name)

/-- The pristine-template-shaped environment file used to state the
configuration claims: the four recognized lines with values
`v`, `w`, `n`, `r`. -/
def mkEnvFile (v w n r : List Char) : List Char :=
  PAT_PROGRAM ++ (v ++ '\n' ::
    (PAT_WALL ++ (w ++ '\n' ::
      (PAT_NETWORK ++ (n ++ '\n' :: (PAT_RPC ++ r))))))

/-- Value strings that interact with none of the replacement machinery:
no `'V'` (every recognized key starts with `V`, and no key contains
another `V`), no newline, no `'$'` (regex replacement escape). -/
def safeChars (l : List Char) : Prop :=
  ∀ c ∈ l, c ≠ 'V' ∧ c ≠ '\n' ∧ c ≠ '$'

instance (l : List Char) : Decidable (safeChars l) := by
  unfold safeChars; infer_instance

/-- Decimal digit characters of `n`, most significant first; the
recursion-friendly form of `Nat.toDigits 10` (proved equal below). -/
def decChars (n : Nat) : List Char :=
  if n < 10 then [Nat.digitChar n]
  else decChars (n / 10) ++ [Nat.digitChar (n % 10)]
decreasing_by exact Nat.div_lt_self (by omega) (by omega)

/-! Basic facts about the embedded string primitives. -/

theorem listStartsWith_append_self (p t : List Char) :
    listStartsWith p (p ++ t) = true := by
  induction p with
  | nil => rfl
  | cons a as ih => simp [listStartsWith, ih]

theorem listStartsWith_iff_append (p s : List Char) :
    listStartsWith p s = true ↔ ∃ t, s = p ++ t := by
  constructor
  · intro h
    induction p generalizing s with
    | nil => exact ⟨s, rfl⟩
    | cons a as ih =>
      cases s with
      | nil => simp [listStartsWith] at h
      | cons b bs =>
        simp only [listStartsWith, Bool.and_eq_true, beq_iff_eq] at h
        obtain ⟨t, ht⟩ := ih bs h.2
        exact ⟨t, by simp [h.1, ht]⟩
  · rintro ⟨t, rfl⟩; exact listStartsWith_append_self p t

theorem listStartsWith_extend {p s : List Char} (t : List Char)
    (h : listStartsWith p s = true) : listStartsWith p (s ++ t) = true := by
  obtain ⟨u, rfl⟩ := (listStartsWith_iff_append p s).mp h
  rw [List.append_assoc]
  exact listStartsWith_append_self p (u ++ t)

theorem listStartsWith_length {p s : List Char}
    (h : listStartsWith p s = true) : p.length ≤ s.length := by
  obtain ⟨u, rfl⟩ := (listStartsWith_iff_append p s).mp h
  simp

/-- A pattern with no newline cannot start at a position whose
continuation reaches past the end of a newline-free segment `x`:
its length stays within `x`. -/
theorem startsWith_length_le_of_no_newline {p x y : List Char}
    (hn : '\n' ∉ p)
    (h : listStartsWith p (x ++ '\n' :: y) = true) : p.length ≤ x.length := by
  obtain ⟨u, hu⟩ := (listStartsWith_iff_append _ _).mp h
  by_contra hlen
  apply hn
  -- '\n' sits at index x.length; with p.length > x.length it lies inside p
  have hp : p = (x ++ '\n' :: y).take p.length := by
    rw [hu]; simp
  rw [hp]
  have h1 : ((x ++ '\n' :: y).take p.length).get? x.length = some '\n' := by
    rw [List.get?_take (by omega)]
    rw [List.get?_append_right (le_refl _)]
    simp
  exact List.get?_mem h1

theorem listStartsWith_of_append_le {p x : List Char} (y : List Char)
    (hlen : p.length ≤ x.length)
    (h : listStartsWith p (x ++ y) = true) : listStartsWith p x = true := by
  obtain ⟨u, hu⟩ := (listStartsWith_iff_append _ _).mp h
  have htake : List.take p.length x = p := by
    have hc := congrArg (List.take p.length) hu
    rw [List.take_append_of_le_length hlen,
      List.take_append_of_le_length (le_refl _), List.take_length] at hc
    exact hc
  rw [listStartsWith_iff_append]
  refine ⟨x.drop p.length, ?_⟩
  conv_lhs => rw [← List.take_append_drop p.length x]
  rw [htake]

theorem replaceAllGo_skip (p r : List Char) :
    ∀ (n : Nat) (cs : List Char),
      replaceAllGo p r n cs = replaceAllGo p r 0 (cs.drop n)
  | 0, cs => by simp
  | n + 1, [] => by simp [replaceAllGo]
  | n + 1, c :: cs => by
    simpa [replaceAllGo] using replaceAllGo_skip p r n cs

theorem replaceAll_nil (p r : List Char) : replaceAll p r [] = [] := rfl

theorem replaceAll_cons {p : List Char} (hp : p ≠ []) (r : List Char)
    (c : Char) (cs : List Char) :
    replaceAll p r (c :: cs) =
      if listStartsWith p (c :: cs) = true then
        r ++ replaceAll p r (cs.drop (p.length - 1))
      else c :: replaceAll p r cs := by
  rw [replaceAll, replaceAllGo]
  rw [replaceAllGo_skip]
  rfl

theorem occursIn_cons (p : List Char) (c : Char) (cs : List Char) :
    occursIn p (c :: cs) = (listStartsWith p (c :: cs) || occursIn p cs) :=
  rfl

theorem replaceAll_no_occur {p : List Char} (r : List Char)
    {s : List Char} (h : occursIn p s = false) : replaceAll p r s = s := by
  have hp : p ≠ [] := by
    intro hnil
    subst hnil
    cases s <;> simp [occursIn, listStartsWith] at h
  induction s with
  | nil => rfl
  | cons c cs ih =>
    rw [occursIn_cons, Bool.or_eq_false_iff] at h
    rw [replaceAll_cons hp, if_neg (by simp [h.1]), ih h.2]

theorem replaceFirstRpc_no_occur (url : List Char)
    {s : List Char} (h : occursIn PAT_RPC s = false) :
    replaceFirstRpc url s = s := by
  induction s with
  | nil => rfl
  | cons c cs ih =>
    rw [occursIn_cons, Bool.or_eq_false_iff] at h
    rw [replaceFirstRpc, if_neg (by simp [h.1]), ih h.2]

/-! Claim results for the identifier value type. -/

/-- Claim C6: round-trip — for every 32-byte identifier,
`from_slice (serialize id) = id` (the reconstruction succeeds and yields
the same identifier). -/
theorem serialize_from_slice_roundtrip (id : Pubkey) :
    Pubkey.from_slice (Pubkey.serialize id) = some id := by
  have h : (Pubkey.serialize id).length ≤ 32 := by
    rw [Pubkey.serialize, id.len32]
  rw [Pubkey.from_slice, dif_pos h]
  congr 1
  apply Pubkey.ext'
  show Pubkey.serialize id ++ List.replicate (32 - (Pubkey.serialize id).length) 0 = id.bytes
  rw [Pubkey.serialize, id.len32]
  simp

/-- Claim C7 counterexample: `from_slice` does fail (Rust: panics) on a 33-byte
input, so the construction is not total over slices of every length. -/
theorem from_slice_33_fails :
    ¬ ∃ p : Pubkey, Pubkey.from_slice (List.replicate 33 0) = some p := by
  rintro ⟨p, hp⟩
  rw [show Pubkey.from_slice (List.replicate 33 0) = none from rfl] at hp
  exact Option.noConfusion hp

/-- Claim C7, amended: `from_slice` succeeds exactly on inputs of at most 32
bytes, copying the input and zero-padding to 32 bytes; on longer inputs
the Rust code panics (`tmp[..data.len()]` is out of bounds), embedded as
`none`. -/
theorem from_slice_total_iff_le_32 (data : List Nat) :
    (data.length ≤ 32 →
      ∃ p : Pubkey, Pubkey.from_slice data = some p ∧
        p.bytes = data ++ List.replicate (32 - data.length) 0) ∧
    (32 < data.length → Pubkey.from_slice data = none) := by
  constructor
  · intro h
    exact ⟨_, by rw [Pubkey.from_slice, dif_pos h], rfl⟩
  · intro h
    rw [Pubkey.from_slice, dif_neg (by omega)]

/-- Witness for C7's amended theorem at concrete inputs: a 1-byte input
succeeds with zero-padding, a 33-byte input fails. -/
theorem from_slice_total_iff_le_32_witness :
    ([5].length ≤ 32 ∧
      ∃ p : Pubkey, Pubkey.from_slice [5] = some p ∧
        p.bytes = [5] ++ List.replicate (32 - [5].length) 0) ∧
    (32 < (List.replicate 33 0 : List Nat).length ∧
      Pubkey.from_slice (List.replicate 33 0) = none) :=
  ⟨⟨by decide, (from_slice_total_iff_le_32 [5]).1 (by decide)⟩,
   ⟨by decide, (from_slice_total_iff_le_32 (List.replicate 33 0)).2 (by decide)⟩⟩

/-- Claim C9: for every counter state, the identifier produced by `new_unique`
is not the system sentinel: bytes 8..31 are zero, while the sentinel has
byte 31 equal to 1. -/
theorem new_unique_not_system_program (s : Nat) :
    (Pubkey.new_unique s).1.is_system_program = false := by
  rw [Pubkey.is_system_program]
  rw [beq_eq_false_iff_ne]
  intro h
  have hb : (Pubkey.new_unique s).1.bytes =
      u64_be_bytes s ++ List.replicate 24 0 := rfl
  rw [hb] at h
  have hu : (u64_be_bytes s).length = 8 := rfl
  have h31 := congrArg (fun l => l[31]?) h
  simp only at h31
  rw [List.getElem?_append_right (by omega), hu] at h31
  rw [List.getElem?_append_right (by simp), List.length_replicate] at h31
  simp [List.getElem?_replicate] at h31

/-! Claim results for the frontend configurator (concrete scenario). -/

/-- Claim C3: the pristine four-line environment file, configured with program
id `ab`, state id `cd`, network `regtest` and RPC URL `http://new:9090`,
becomes exactly the four populated lines, the RPC line fully replaced. -/
theorem build_frontend_pristine_scenario :
    build_frontend (some "http://new:9090".data) "ab".data "cd".data
      "regtest".data
      "VITE_PROGRAM_PUBKEY=\nVITE_WALL_ACCOUNT_PUBKEY=\nVITE_NETWORK=\nVITE_RPC_URL=http://old:8080".data =
    "VITE_PROGRAM_PUBKEY=ab\nVITE_WALL_ACCOUNT_PUBKEY=cd\nVITE_NETWORK=regtest\nVITE_RPC_URL=http://new:9090".data := by
  decide

/-! Claim results for RPC endpoint resolution. -/

/-- Claim C5: `get_rpc_url` resolves the effective RPC URL by priority —
the command-line argument when present, else the configured leader
endpoint, else the built-in default — and is total by construction
(it returns a `String` for every input). -/
theorem get_rpc_url_priority (args : DemoStartArgs) (config : Config) :
    (∀ u, args.rpc_url = some u → get_rpc_url args config = u) ∧
    (args.rpc_url = none →
      (∀ l, config "leader_rpc_endpoint" = some l →
        get_rpc_url args config = l) ∧
      (config "leader_rpc_endpoint" = none →
        get_rpc_url args config = NODE1_ADDRESS)) := by
  refine ⟨fun u hu => ?_, fun hnone => ⟨fun l hl => ?_, fun hnone2 => ?_⟩⟩
  · rw [get_rpc_url, hu]; rfl
  · rw [get_rpc_url, hnone, hl]; rfl
  · rw [get_rpc_url, hnone, hnone2]; rfl

/-- Witness for C5 at concrete inputs covering all three priority
levels. -/
theorem get_rpc_url_priority_witness :
    get_rpc_url ⟨some "http://arg:1"⟩ (fun _ => some "http://cfg:2") =
      "http://arg:1" ∧
    get_rpc_url ⟨none⟩ (fun _ => some "http://cfg:2") = "http://cfg:2" ∧
    get_rpc_url ⟨none⟩ (fun _ => none) = NODE1_ADDRESS :=
  ⟨(get_rpc_url_priority ⟨some "http://arg:1"⟩ _).1 "http://arg:1" rfl,
   ((get_rpc_url_priority ⟨none⟩ _).2 rfl).1 "http://cfg:2" rfl,
   ((get_rpc_url_priority ⟨none⟩ _).2 rfl).2 rfl⟩

/-! Monotonicity of big-endian byte encoding, for C8. -/

theorem beDigits_mod (w i : Nat) : beDigits w (i % 256 ^ w) = beDigits w i := by
  cases w with
  | zero => rfl
  | succ w =>
    rw [beDigits, beDigits]
    congr 1
    · rw [pow_succ, Nat.mod_mul_right_div_self]
      rw [Nat.mod_mod_of_dvd _ (by norm_num)]
    · congr 1
      exact Nat.mod_mod_of_dvd _ (pow_dvd_pow 256 (Nat.le_succ w))

theorem beDigits_succ' (w i : Nat) :
    beDigits (w + 1) i = i / 256 ^ w % 256 :: beDigits w i := by
  rw [beDigits, beDigits_mod]

theorem u64_be_bytes_eq_beDigits (i : Nat) : u64_be_bytes i = beDigits 8 i := by
  rw [u64_be_bytes]
  rw [show (8 : Nat) = 7 + 1 from rfl, beDigits_succ']
  rw [show (7 : Nat) = 6 + 1 from rfl, beDigits_succ']
  rw [show (6 : Nat) = 5 + 1 from rfl, beDigits_succ']
  rw [show (5 : Nat) = 4 + 1 from rfl, beDigits_succ']
  rw [show (4 : Nat) = 3 + 1 from rfl, beDigits_succ']
  rw [show (3 : Nat) = 2 + 1 from rfl, beDigits_succ']
  rw [show (2 : Nat) = 1 + 1 from rfl, beDigits_succ']
  rw [show (1 : Nat) = 0 + 1 from rfl, beDigits_succ']
  norm_num [beDigits]

theorem beDigits_length (w i : Nat) : (beDigits w i).length = w := by
  induction w generalizing i with
  | zero => rfl
  | succ w ih => rw [beDigits]; simp [ih]

theorem beDigits_lt {w i j : Nat} (hij : i < j) (hj : j < 256 ^ w) :
    List.Lex (· < ·) (beDigits w i) (beDigits w j) := by
  induction w generalizing i j with
  | zero => omega
  | succ w ih =>
    rw [beDigits, beDigits]
    have hpow : (256 : Nat) ^ (w + 1) = 256 ^ w * 256 := pow_succ 256 w
    have hi : i / 256 ^ w < 256 := by
      rw [Nat.div_lt_iff_lt_mul (Nat.pos_pow_of_pos w (by norm_num))]
      omega
    have hjd : j / 256 ^ w < 256 := by
      rw [Nat.div_lt_iff_lt_mul (Nat.pos_pow_of_pos w (by norm_num))]
      omega
    have hle : i / 256 ^ w ≤ j / 256 ^ w := Nat.div_le_div_right (le_of_lt hij)
    rcases lt_or_eq_of_le hle with hlt | heq
    · exact List.Lex.rel (by rw [Nat.mod_eq_of_lt hi, Nat.mod_eq_of_lt hjd]; exact hlt)
    · rw [heq]
      apply List.Lex.cons
      apply ih
      · have hi2 := Nat.div_add_mod i (256 ^ w)
        have hj2 := Nat.div_add_mod j (256 ^ w)
        rw [heq] at hi2
        omega
      · exact Nat.mod_lt _ (Nat.pos_pow_of_pos w (by norm_num))

theorem lex_append_of_length_eq {l₁ l₂ : List Nat} (t₁ t₂ : List Nat)
    (hlen : l₁.length = l₂.length) (h : List.Lex (· < ·) l₁ l₂) :
    List.Lex (· < ·) (l₁ ++ t₁) (l₂ ++ t₂) := by
  induction h with
  | nil => simp at hlen
  | @cons a lc ld h ih => exact List.Lex.cons (ih (by simpa using hlen))
  | rel h => exact List.Lex.rel h

theorem lex_lt_irrefl (l : List Nat) : ¬ List.Lex (· < ·) l l := by
  induction l with
  | nil => intro h; cases h
  | cons a l ih =>
    intro h
    cases h with
    | cons h => exact ih h
    | rel h => exact lt_irrefl a h

theorem new_unique_list_eq_map {N s : Nat} (h : s + N ≤ 2 ^ 64) :
    new_unique_list s N = (List.range N).map fun k => mkUniquePk (s + k) := by
  induction N generalizing s with
  | zero => rfl
  | succ n ih =>
    rw [new_unique_list, List.range_succ_eq_map]
    show mkUniquePk s :: new_unique_list ((s + 1) % 2 ^ 64) n = _
    rcases Nat.lt_or_ge (s + 1) (2 ^ 64) with hs | hs
    · rw [Nat.mod_eq_of_lt hs, ih (by omega)]
      simp only [List.map_cons, List.map_map, Nat.add_zero]
      congr 1
      apply List.map_congr_left
      intro k _
      simp [Function.comp]
      ring_nf
    · have hn : n = 0 := by omega
      subst hn
      simp [new_unique_list]

theorem mkUniquePk_bytes (i : Nat) :
    (mkUniquePk i).bytes = u64_be_bytes i ++ List.replicate 24 0 := rfl

theorem mkUniquePk_lex {i j : Nat} (hij : i < j) (hj : j < 2 ^ 64) :
    List.Lex (· < ·) (mkUniquePk i).bytes (mkUniquePk j).bytes := by
  rw [mkUniquePk_bytes, mkUniquePk_bytes,
    u64_be_bytes_eq_beDigits, u64_be_bytes_eq_beDigits]
  apply lex_append_of_length_eq _ _ (by rw [beDigits_length, beDigits_length])
  exact beDigits_lt hij (by norm_num at hj ⊢; omega)

/-- Claim C8, amended: up to `2 ^ 64 - 1` successive calls of `new_unique`
within one process (counter starting at 1) produce pairwise distinct
identifiers in strictly increasing lexicographic byte order; at the
2^64-th call the u64 counter wraps, so the bound is necessary. -/
theorem new_unique_strictly_increasing (N : Nat) (hN : N ≤ 2 ^ 64 - 1) :
    (new_unique_list UNIQUE_COUNTER_INIT N).Pairwise
      fun p q => p ≠ q ∧ List.Lex (· < ·) p.bytes q.bytes := by
  rw [new_unique_list_eq_map (by norm_num [UNIQUE_COUNTER_INIT]; omega)]
  rw [List.pairwise_iff_getElem]
  intro i j hi hj hij
  simp only [List.getElem_map, List.getElem_range, List.length_map,
    List.length_range] at hi hj ⊢
  have hlex : List.Lex (· < ·) (mkUniquePk (UNIQUE_COUNTER_INIT + i)).bytes
      (mkUniquePk (UNIQUE_COUNTER_INIT + j)).bytes := by
    apply mkUniquePk_lex (by omega)
    have : (2 : Nat) ^ 64 - 1 ≥ 1 := by norm_num
    simp only [UNIQUE_COUNTER_INIT]
    omega
  refine ⟨?_, hlex⟩
  intro heq
  rw [heq] at hlex
  exact lex_lt_irrefl _ hlex

/-- Witness for C8's amended theorem at `N = 3`. -/
theorem new_unique_strictly_increasing_witness :
    3 ≤ 2 ^ 64 - 1 ∧
      (new_unique_list UNIQUE_COUNTER_INIT 3).Pairwise
        fun p q => p ≠ q ∧ List.Lex (· < ·) p.bytes q.bytes :=
  ⟨by norm_num, new_unique_strictly_increasing 3 (by norm_num)⟩

theorem new_unique_list_append (m n s : Nat) :
    new_unique_list s (m + n) =
      new_unique_list s m ++ new_unique_list (stateIter s m) n := by
  induction m generalizing s with
  | zero => rw [Nat.zero_add]; rfl
  | succ m ih =>
    have hshift : m + 1 + n = (m + n) + 1 := by omega
    rw [hshift, new_unique_list, new_unique_list]
    show (mkUniquePk s :: new_unique_list ((s + 1) % 2 ^ 64) (m + n)) = _
    rw [ih]
    rfl

theorem stateIter_eq {s : Nat} (m : Nat) (hs : s < 2 ^ 64) :
    stateIter s m = (s + m) % 2 ^ 64 := by
  induction m generalizing s with
  | zero => rw [stateIter]; omega
  | succ m ih =>
    rw [stateIter, ih (Nat.mod_lt _ (by norm_num))]
    conv_rhs => rw [show s + (m + 1) = (s + 1) + m by omega]
    rw [Nat.mod_add_mod]

/-- Claim C8 counterexample: with `N = 2 ^ 64` calls the claim fails — the u64
counter wraps to 0, so the last identifier's bytes are all zeros while
the second-to-last identifier's leading bytes are 255: the sequence is
not pairwise increasing (nor distinct from older entries). -/
theorem new_unique_wraps_at_2_pow_64 :
    ¬ (new_unique_list UNIQUE_COUNTER_INIT (2 ^ 64)).Pairwise
      fun p q => p ≠ q ∧ List.Lex (· < ·) p.bytes q.bytes := by
  intro h
  rw [show (2 : Nat) ^ 64 = (2 ^ 64 - 1) + 1 by norm_num,
    new_unique_list_append] at h
  have hs : stateIter UNIQUE_COUNTER_INIT (2 ^ 64 - 1) = 0 := by
    rw [stateIter_eq _ (by norm_num [UNIQUE_COUNTER_INIT])]
    simp only [UNIQUE_COUNTER_INIT]
    norm_num
  rw [hs] at h
  have hmem : mkUniquePk (2 ^ 64 - 1) ∈
      new_unique_list UNIQUE_COUNTER_INIT (2 ^ 64 - 1) := by
    rw [new_unique_list_eq_map (by norm_num [UNIQUE_COUNTER_INIT])]
    refine List.mem_map.mpr ⟨2 ^ 64 - 2, List.mem_range.mpr (by norm_num), ?_⟩
    congr 1
  have hmem0 : mkUniquePk 0 ∈ new_unique_list 0 1 := by
    rw [show new_unique_list 0 1 = [mkUniquePk 0] from rfl]
    exact List.mem_singleton.mpr rfl
  have hrel := (List.pairwise_append.mp h).2.2 _ hmem _ hmem0
  obtain ⟨-, hlex⟩ := hrel
  rw [mkUniquePk_bytes, mkUniquePk_bytes] at hlex
  rw [show u64_be_bytes (2 ^ 64 - 1) = 255 :: [255, 255, 255, 255, 255, 255, 255] by
    norm_num [u64_be_bytes]] at hlex
  rw [show u64_be_bytes 0 = 0 :: [0, 0, 0, 0, 0, 0, 0] by
    norm_num [u64_be_bytes]] at hlex
  rw [List.cons_append, List.cons_append] at hlex
  cases hlex with
  | rel h255 => omega

/-! Injectivity of decimal rendering, for C2's collision-free naming. -/

theorem decChars_of_lt {n : Nat} (h : n < 10) :
    decChars n = [Nat.digitChar n] := by
  rw [decChars, if_pos h]

theorem decChars_of_ge {n : Nat} (h : ¬ n < 10) :
    decChars n = decChars (n / 10) ++ [Nat.digitChar (n % 10)] := by
  rw [decChars, if_neg h]

theorem toDigitsCore_eq_decChars :
    ∀ (fuel n : Nat) (ds : List Char), n < fuel →
      Nat.toDigitsCore 10 fuel n ds = decChars n ++ ds := by
  intro fuel
  induction fuel with
  | zero => intro n ds h; omega
  | succ fuel ih =>
    intro n ds h
    rw [Nat.toDigitsCore]
    by_cases h10 : n < 10
    · have hdiv : n / 10 = 0 := Nat.div_eq_of_lt h10
      simp only [hdiv, if_pos rfl]
      rw [decChars_of_lt h10, Nat.mod_eq_of_lt h10]
      rfl
    · have hdiv : n / 10 ≠ 0 := by
        intro hc
        have := Nat.div_eq_of_lt (show n < 10 by omega)
        omega
      simp only [if_neg hdiv]
      have hlt : n / 10 < fuel := by
        have h1 : n / 10 < n := Nat.div_lt_self (by omega) (by omega)
        omega
      rw [ih (n / 10) _ hlt, decChars_of_ge h10, List.append_assoc]
      rfl

theorem toDigits_eq_decChars (n : Nat) : Nat.toDigits 10 n = decChars n := by
  rw [Nat.toDigits, toDigitsCore_eq_decChars (n + 1) n [] (by omega)]
  simp

theorem decChars_ne_nil (n : Nat) : decChars n ≠ [] := by
  by_cases h : n < 10
  · rw [decChars_of_lt h]; simp
  · rw [decChars_of_ge h]; simp

theorem digitChar_injOn :
    ∀ m, m < 10 → ∀ n, n < 10 → Nat.digitChar m = Nat.digitChar n → m = n := by
  decide

theorem decChars_inj : ∀ m n : Nat, decChars m = decChars n → m = n := by
  intro m
  induction m using Nat.strong_induction_on with
  | _ m ih =>
    intro n h
    by_cases hm : m < 10 <;> by_cases hn : n < 10
    · rw [decChars_of_lt hm, decChars_of_lt hn] at h
      exact digitChar_injOn m hm n hn (by simpa using h)
    · rw [decChars_of_lt hm, decChars_of_ge hn] at h
      have hl := congrArg List.length h
      simp only [List.length_append, List.length_cons, List.length_nil] at hl
      have h0 : (decChars (n / 10)).length = 0 := by omega
      exact absurd (List.length_eq_zero.mp h0) (decChars_ne_nil _)
    · rw [decChars_of_ge hm, decChars_of_lt hn] at h
      have hl := congrArg List.length h
      simp only [List.length_append, List.length_cons, List.length_nil] at hl
      have h0 : (decChars (m / 10)).length = 0 := by omega
      exact absurd (List.length_eq_zero.mp h0) (decChars_ne_nil _)
    · rw [decChars_of_ge hm, decChars_of_ge hn] at h
      have hinj := List.append_inj' h (by simp)
      have hdiv : m / 10 = n / 10 :=
        ih (m / 10) (Nat.div_lt_self (by omega) (by omega)) (n / 10) hinj.1
      have hmod : m % 10 = n % 10 := by
        have h2 := hinj.2
        simp only [List.cons.injEq] at h2
        exact digitChar_injOn _ (Nat.mod_lt _ (by omega)) _
          (Nat.mod_lt _ (by omega)) h2.1
      have h1 := Nat.div_add_mod m 10
      have h2 := Nat.div_add_mod n 10
      omega

theorem decChars_length_pos (n : Nat) : 1 ≤ (decChars n).length := by
  cases hc : decChars n with
  | nil => exact absurd hc (decChars_ne_nil n)
  | cons a l => simp

theorem nameSeq_inj : ∀ i j : Nat, nameSeq i = nameSeq j → i = j := by
  have hlen : ∀ k : Nat, 10 ≤ ("graffiti_".data ++ Nat.toDigits 10 (k + 1)).length := by
    intro k
    rw [toDigits_eq_decChars, List.length_append]
    have h1 := decChars_length_pos (k + 1)
    have h9 : ("graffiti_".data).length = 9 := rfl
    omega
  intro i j h
  match i, j with
  | 0, 0 => rfl
  | 0, j + 1 =>
    rw [nameSeq, nameSeq] at h
    have hl := congrArg List.length h
    have h8 : ("graffiti".data).length = 8 := rfl
    have h10 := hlen j
    omega
  | i + 1, 0 =>
    rw [nameSeq, nameSeq] at h
    have hl := congrArg List.length h
    have h8 : ("graffiti".data).length = 8 := rfl
    have h10 := hlen i
    omega
  | i + 1, j + 1 =>
    rw [nameSeq, nameSeq] at h
    have hc := List.append_cancel_left h
    rw [toDigits_eq_decChars, toDigits_eq_decChars] at hc
    have := decChars_inj _ _ hc
    omega

theorem key_name_exists_iff (reg : List KeyRecord) (x : List Char) :
    key_name_exists reg x = true ↔ ∃ r ∈ reg, r.name = x := by
  rw [key_name_exists, List.any_eq_true]
  constructor
  · rintro ⟨r, hr, hb⟩; exact ⟨r, hr, by simpa using hb⟩
  · rintro ⟨r, hr, hb⟩; exact ⟨r, hr, by simpa using hb⟩

theorem nameSeq_pigeonhole {reg : List KeyRecord} {k : Nat}
    (h : ∀ i < k, key_name_exists reg (nameSeq i) = true) :
    k ≤ reg.length := by
  have hsub : (Finset.range k).image nameSeq ⊆
      (reg.map fun r => r.name).toFinset := by
    intro x hx
    obtain ⟨i, hi, rfl⟩ := Finset.mem_image.mp hx
    rw [List.mem_toFinset, List.mem_map]
    obtain ⟨r, hr, hname⟩ :=
      (key_name_exists_iff reg _).mp (h i (Finset.mem_range.mp hi))
    exact ⟨r, hr, hname⟩
  have hcard : ((Finset.range k).image nameSeq).card = k := by
    rw [Finset.card_image_of_injOn fun a _ b _ hab => nameSeq_inj a b hab]
    exact Finset.card_range k
  calc k = ((Finset.range k).image nameSeq).card := hcard.symm
    _ ≤ (reg.map fun r => r.name).toFinset.card := Finset.card_le_card hsub
    _ ≤ (reg.map fun r => r.name).length := List.toFinset_card_le _
    _ = reg.length := List.length_map _ _

theorem create_unique_key_name_loop_spec (reg : List KeyRecord) :
    ∀ (fuel j k : Nat), j ≤ k → k - j ≤ fuel →
      (∀ i, j ≤ i → i < k → key_name_exists reg (nameSeq i) = true) →
      key_name_exists reg (nameSeq k) = false →
      create_unique_key_name_loop reg (nameSeq j) (j + 1) fuel = nameSeq k := by
  intro fuel
  induction fuel with
  | zero =>
    intro j k hjk hfuel _ _
    have : j = k := by omega
    subst this
    rfl
  | succ fuel ih =>
    intro j k hjk hfuel hall hfree
    by_cases hjk2 : j = k
    · subst hjk2
      rw [create_unique_key_name_loop, if_neg (by simp [hfree])]
    · have hlt : j < k := by omega
      rw [create_unique_key_name_loop, if_pos (by simp [hall j (le_refl j) hlt])]
      have hstep : ("graffiti_".data ++ Nat.toDigits 10 (j + 1)) = nameSeq (j + 1) := rfl
      rw [hstep]
      exact ih (j + 1) k (by omega) (by omega)
        (fun i hi1 hi2 => hall i (by omega) hi2) hfree

/-- Every probe sequence begins at `nameSeq 0 = "graffiti"`. -/
theorem create_unique_key_name_eq_loop (reg : List KeyRecord) :
    create_unique_key_name reg =
      create_unique_key_name_loop reg (nameSeq 0) (0 + 1) (reg.length + 1) := rfl

theorem create_unique_key_name_spec (reg : List KeyRecord) (k : Nat)
    (hall : ∀ i < k, key_name_exists reg (nameSeq i) = true)
    (hfree : key_name_exists reg (nameSeq k) = false) :
    create_unique_key_name reg = nameSeq k ∧
      key_name_exists reg (create_unique_key_name reg) = false := by
  have hk : k ≤ reg.length := nameSeq_pigeonhole hall
  have heq : create_unique_key_name reg = nameSeq k := by
    rw [create_unique_key_name_eq_loop]
    exact create_unique_key_name_loop_spec reg (reg.length + 1) 0 k (by omega)
      (by omega) (fun i _ hi => hall i hi) hfree
  exact ⟨heq, by rw [heq]; exact hfree⟩

/-- Claim C2: `create_unique_key_name` returns the first name in the probe
sequence `graffiti`, `graffiti_1`, `graffiti_2`, ... that does not exist
in the registry — so the returned name never exists in the registry —
and in particular a registry containing `graffiti` and `graffiti_1` but
not `graffiti_2` yields `graffiti_2`. -/
theorem create_unique_key_name_first_free :
    (∀ (reg : List KeyRecord) (k : Nat),
      (∀ i < k, key_name_exists reg (nameSeq i) = true) →
      key_name_exists reg (nameSeq k) = false →
      create_unique_key_name reg = nameSeq k ∧
        key_name_exists reg (create_unique_key_name reg) = false) ∧
    (∀ reg : List KeyRecord,
      key_name_exists reg "graffiti".data = true →
      key_name_exists reg "graffiti_1".data = true →
      key_name_exists reg "graffiti_2".data = false →
      create_unique_key_name reg = "graffiti_2".data) := by
  refine ⟨create_unique_key_name_spec, fun reg h0 h1 h2 => ?_⟩
  have := create_unique_key_name_spec reg 2 ?_ ?_
  · exact this.1
  · intro i hi
    interval_cases i
    · exact h0
    · exact h1
  · exact h2

/-- Witness for C2 on the registry containing exactly `graffiti` and
`graffiti_1`: both conjuncts applied, producing `graffiti_2`. -/
theorem create_unique_key_name_first_free_witness :
    create_unique_key_name
        [⟨"graffiti".data, "x".data⟩, ⟨"graffiti_1".data, "y".data⟩] =
      "graffiti_2".data ∧
    key_name_exists
        [⟨"graffiti".data, "x".data⟩, ⟨"graffiti_1".data, "y".data⟩]
        (create_unique_key_name
          [⟨"graffiti".data, "x".data⟩, ⟨"graffiti_1".data, "y".data⟩]) = false := by
  refine ⟨create_unique_key_name_first_free.2 _ (by decide) (by decide) (by decide), ?_⟩
  exact (create_unique_key_name_first_free.1 _ 2 (by decide) (by decide)).2

/-! Registry lemmas and the orchestrator-resumption claim (C1). -/

theorem get_pubkey_from_name_of_exists {reg : List KeyRecord}
    {n : List Char} (h : key_name_exists reg n = true) :
    ∃ w, get_pubkey_from_name n reg = some w := by
  rw [key_name_exists, List.any_eq_true] at h
  have hsome : (reg.find? fun r => r.name == n).isSome = true :=
    List.find?_isSome.mpr h
  obtain ⟨r, hr⟩ := Option.isSome_iff_exists.mp hsome
  exact ⟨r.pubkey, by rw [get_pubkey_from_name, hr]; rfl⟩

theorem get_pubkey_from_name_append_self {reg : List KeyRecord}
    {n : List Char} (h : key_name_exists reg n = false) (pkv : List Char) :
    get_pubkey_from_name n (reg ++ [⟨n, pkv⟩]) = some pkv := by
  rw [get_pubkey_from_name, List.find?_append]
  have h1 : (reg.find? fun r => r.name == n) = none := by
    rw [List.find?_eq_none]
    intro r hr
    rw [key_name_exists] at h
    exact (List.any_eq_false.mp h) r hr
  rw [h1, Option.none_or]
  simp [List.find?]

theorem setup_wall_step_ok (reg : List KeyRecord) (mint : List Char → List Char) :
    ∃ w reg' created, setup_wall_step reg mint = .ok (w, reg', created) ∧
      ∀ n ∈ created, n = WALL_NAME := by
  by_cases h : key_name_exists reg WALL_NAME = true
  · obtain ⟨w, hw⟩ := get_pubkey_from_name_of_exists h
    refine ⟨w, reg, [], ?_, by simp⟩
    rw [setup_wall_step, if_pos h, hw]
  · have hf : key_name_exists reg WALL_NAME = false := by
      rwa [Bool.not_eq_true] at h
    refine ⟨mint WALL_NAME, reg ++ [⟨WALL_NAME, mint WALL_NAME⟩], [WALL_NAME], ?_, by simp⟩
    rw [setup_wall_step, if_neg (by simp [hf]),
      get_pubkey_from_name_append_self hf (mint WALL_NAME)]

/-- Claim C1: orchestrator resumption — when the environment file already
carries a non-empty program identifier on its `VITE_PROGRAM_PUBKEY` line
and the registry maps that identifier to a key name, re-running the
pipeline reuses that identity: the run succeeds, `create_account` is
never called for the program identity (every created account is the
`graffiti_wall_state` record), and the program identifier in the
returned tuple is exactly the one read from the file. -/
theorem setup_reuses_existing_program_identity
    (args : DemoStartArgs) (config : Config) (env : List Char)
    (reg : List KeyRecord) (mint : List Char → List Char)
    (pk name : List Char)
    (hext : extract_program_pubkey env = pk) (hne : pk ≠ [])
    (hfind : find_key_name_by_pubkey reg pk = some name) :
    ∃ o : SetupOutcome,
      setup_demo_environment args config env reg mint = .ok o ∧
      o.program_pubkey = pk ∧ ∀ n ∈ o.created_accounts, n = WALL_NAME := by
  have hmem : key_name_exists reg name = true := by
    rw [find_key_name_by_pubkey] at hfind
    obtain ⟨r, hr, hrn⟩ := Option.map_eq_some'.mp hfind
    rw [key_name_exists, List.any_eq_true]
    exact ⟨r, List.mem_of_find?_eq_some hr, by simp [hrn]⟩
  obtain ⟨w, reg', created, hwall, hcreated⟩ := setup_wall_step_ok reg mint
  simp only [setup_demo_environment, hext]
  rw [if_neg hne, hfind]
  simp only [hmem, if_pos rfl, hwall]
  exact ⟨_, rfl, rfl, hcreated⟩

/-- Witness for C1 on a concrete environment file and registry. -/
theorem setup_reuses_existing_program_identity_witness :
    extract_program_pubkey "VITE_PROGRAM_PUBKEY=abc\nVITE_RPC_URL=x".data =
      "abc".data ∧
    "abc".data ≠ ([] : List Char) ∧
    find_key_name_by_pubkey [⟨"graffiti".data, "abc".data⟩] "abc".data =
      some "graffiti".data ∧
    ∃ o : SetupOutcome,
      setup_demo_environment ⟨none⟩ (fun _ => none)
          "VITE_PROGRAM_PUBKEY=abc\nVITE_RPC_URL=x".data
          [⟨"graffiti".data, "abc".data⟩] (fun _ => "m".data) = .ok o ∧
      o.program_pubkey = "abc".data ∧
      ∀ n ∈ o.created_accounts, n = WALL_NAME :=
  ⟨by decide, by decide, by decide,
   setup_reuses_existing_program_identity ⟨none⟩ (fun _ => none)
     "VITE_PROGRAM_PUBKEY=abc\nVITE_RPC_URL=x".data
     [⟨"graffiti".data, "abc".data⟩] (fun _ => "m".data)
     "abc".data "graffiti".data (by decide) (by decide) (by decide)⟩

/-! Line structure of the environment file, for C4's frame property. -/

theorem splitLines_ne_nil (s : List Char) : splitLines s ≠ [] := by
  cases s with
  | nil => simp [splitLines]
  | cons c cs =>
    rw [splitLines]
    by_cases h : c = '\n'
    · simp [h]
    · simp only [if_neg h]
      cases hc : splitLines cs <;> simp

theorem splitLines_append_newline :
    ∀ x y : List Char,
      splitLines (x ++ '\n' :: y) = splitLines x ++ splitLines y := by
  intro x
  induction x with
  | nil => intro y; simp [splitLines]
  | cons c x ih =>
    intro y
    by_cases h : c = '\n'
    · subst h
      show splitLines ('\n' :: (x ++ '\n' :: y)) = _
      rw [splitLines, if_pos rfl, ih]
      rw [show splitLines ('\n' :: x) = [] :: splitLines x by rw [splitLines, if_pos rfl]]
      rfl
    · show splitLines (c :: (x ++ '\n' :: y)) = _
      obtain ⟨l, ls, hx⟩ : ∃ l ls, splitLines x = l :: ls := by
        cases hc : splitLines x with
        | nil => exact absurd hc (splitLines_ne_nil x)
        | cons l ls => exact ⟨l, ls, rfl⟩
      rw [splitLines, if_neg h, ih, hx]
      rw [show splitLines (c :: x) = (c :: l) :: ls by rw [splitLines, if_neg h, hx]]
      rfl

theorem mem_splitLines_no_newline :
    ∀ (s l : List Char), l ∈ splitLines s → '\n' ∉ l := by
  intro s
  induction s with
  | nil =>
    intro l hl
    simp [splitLines] at hl
    subst hl
    simp
  | cons c cs ih =>
    intro l hl
    rw [splitLines] at hl
    by_cases h : c = '\n'
    · rw [if_pos h] at hl
      rcases List.mem_cons.mp hl with rfl | hl
      · simp
      · exact ih l hl
    · rw [if_neg h] at hl
      obtain ⟨hd, tl, hx⟩ : ∃ hd tl, splitLines cs = hd :: tl := by
        cases hc : splitLines cs with
        | nil => exact absurd hc (splitLines_ne_nil cs)
        | cons hd tl => exact ⟨hd, tl, rfl⟩
      rw [hx] at hl
      rcases List.mem_cons.mp hl with rfl | hl
      · intro hmem
        rcases List.mem_cons.mp hmem with h1 | h1
        · exact h h1.symm
        · exact ih hd (by rw [hx]; exact List.mem_cons_self hd tl) h1
      · exact ih l (by rw [hx]; exact List.mem_cons_of_mem hd hl)

theorem splitLines_eq_single :
    ∀ {s : List Char}, (∀ c ∈ s, c ≠ '\n') → splitLines s = [s] := by
  intro s
  induction s with
  | nil => intro _; rfl
  | cons c cs ih =>
    intro h
    rw [splitLines, if_neg (h c (List.mem_cons_self c cs))]
    rw [ih fun d hd => h d (List.mem_cons_of_mem c hd)]

theorem newline_decomp (s : List Char) :
    (∀ c ∈ s, c ≠ '\n') ∨
      ∃ x y, s = x ++ '\n' :: y ∧ ∀ c ∈ x, c ≠ '\n' := by
  induction s with
  | nil => left; simp
  | cons c cs ih =>
    by_cases h : c = '\n'
    · right; exact ⟨[], cs, by simp [h], by simp⟩
    · rcases ih with h1 | ⟨x, y, rfl, hx⟩
      · left
        intro d hd
        rcases List.mem_cons.mp hd with rfl | hd
        · exact h
        · exact h1 d hd
      · right
        refine ⟨c :: x, y, rfl, ?_⟩
        intro d hd
        rcases List.mem_cons.mp hd with rfl | hd
        · exact h
        · exact hx d hd

theorem replaceAll_append_newline {p : List Char} (hp : p ≠ [])
    (hn : '\n' ∉ p) (r : List Char) :
    ∀ x y : List Char,
      replaceAll p r (x ++ '\n' :: y) =
        replaceAll p r x ++ '\n' :: replaceAll p r y := by
  have hhead : ∀ y : List Char, listStartsWith p ('\n' :: y) = false := by
    intro y
    cases hc : p with
    | nil => exact absurd hc hp
    | cons p0 p' =>
      have h0 : p0 ≠ '\n' := by
        intro h
        exact hn (by rw [hc, h]; exact List.mem_cons_self _ _)
      simp [listStartsWith, h0]
  have main : ∀ (n : Nat) (x : List Char), x.length ≤ n → ∀ y,
      replaceAll p r (x ++ '\n' :: y) =
        replaceAll p r x ++ '\n' :: replaceAll p r y := by
    intro n
    induction n with
    | zero =>
      intro x hx y
      have : x = [] := List.eq_nil_of_length_eq_zero (by omega)
      subst this
      show replaceAll p r ('\n' :: y) = '\n' :: replaceAll p r y
      rw [replaceAll_cons hp, if_neg (by simp [hhead y])]
    | succ n ih =>
      intro x hx y
      cases x with
      | nil =>
        show replaceAll p r ('\n' :: y) = '\n' :: replaceAll p r y
        rw [replaceAll_cons hp, if_neg (by simp [hhead y])]
      | cons c x' =>
        by_cases hm : listStartsWith p (c :: (x' ++ '\n' :: y)) = true
        · have hlen : p.length ≤ (c :: x').length :=
            startsWith_length_le_of_no_newline hn hm
          have hmx : listStartsWith p (c :: x') = true :=
            listStartsWith_of_append_le ('\n' :: y) hlen hm
          have hd : p.length - 1 ≤ x'.length := by
            simp at hlen; omega
          rw [show (c :: x') ++ '\n' :: y = c :: (x' ++ '\n' :: y) from rfl]
          rw [replaceAll_cons hp, if_pos hm]
          rw [List.drop_append_of_le_length hd]
          rw [ih (x'.drop (p.length - 1))
            (by simp only [List.length_drop]; simp at hx; omega) y]
          rw [replaceAll_cons hp, if_pos hmx]
          rw [List.append_assoc]
        · have hmx : listStartsWith p (c :: x') = false := by
            cases hc : listStartsWith p (c :: x') with
            | false => rfl
            | true => exact absurd (listStartsWith_extend ('\n' :: y) hc) hm
          rw [show (c :: x') ++ '\n' :: y = c :: (x' ++ '\n' :: y) from rfl]
          rw [replaceAll_cons hp, if_neg hm]
          rw [ih x' (by simp at hx; omega) y]
          rw [replaceAll_cons hp, if_neg (by simp [hmx])]
          rfl
  exact fun x y => main x.length x (le_refl _) y

theorem splitLines_replaceAll {p : List Char} (hp : p ≠ [])
    (hn : '\n' ∉ p) (r : List Char) (s : List Char) :
    splitLines (replaceAll p r s) =
      (splitLines s).flatMap fun l => splitLines (replaceAll p r l) := by
  have main : ∀ (n : Nat) (s : List Char), s.length ≤ n →
      splitLines (replaceAll p r s) =
        (splitLines s).flatMap fun l => splitLines (replaceAll p r l) := by
    intro n
    induction n with
    | zero =>
      intro s hs
      have : s = [] := List.eq_nil_of_length_eq_zero (by omega)
      subst this
      simp [splitLines, replaceAll_nil]
    | succ n ih =>
      intro s hs
      rcases newline_decomp s with h1 | ⟨x, y, rfl, hx⟩
      · rw [splitLines_eq_single h1]
        simp
      · rw [replaceAll_append_newline hp hn r x y,
          splitLines_append_newline, splitLines_append_newline,
          splitLines_eq_single hx]
        have hy : y.length ≤ n := by
          have := congrArg List.length (rfl : x ++ '\n' :: y = x ++ '\n' :: y)
          simp only [List.length_append, List.length_cons] at hs ⊢
          omega
        rw [ih y hy]
        simp
  exact main s.length s (le_refl _)

theorem filter_sublist_flatMap (P : List Char → Bool)
    (g : List Char → List (List Char)) :
    ∀ ls : List (List Char), (∀ l ∈ ls, P l = true → g l = [l]) →
      List.Sublist (ls.filter P) ((ls.flatMap g).filter P) := by
  intro ls
  induction ls with
  | nil => intro _; simp
  | cons l ls ih =>
    intro h
    rw [List.flatMap_cons, List.filter_append]
    by_cases hP : P l = true
    · rw [h l (List.mem_cons_self l ls) hP]
      rw [List.filter_cons_of_pos hP]
      rw [show List.filter P [l] = [l] by simp [hP]]
      exact List.Sublist.cons₂ l
        (ih fun l' hl' => h l' (List.mem_cons_of_mem _ hl'))
    · rw [List.filter_cons_of_neg (by simp at hP ⊢; simp [hP])]
      exact List.Sublist.trans
        (ih fun l' hl' => h l' (List.mem_cons_of_mem _ hl'))
        (List.sublist_append_of_sublist_right (List.Sublist.refl _))

theorem filter_step_replaceAll {p : List Char} (hp : p ≠ [])
    (hn : '\n' ∉ p) (r : List Char) (P : List Char → Bool)
    (hP : ∀ l, P l = true → occursIn p l = false) (s : List Char) :
    List.Sublist ((splitLines s).filter P)
      ((splitLines (replaceAll p r s)).filter P) := by
  rw [splitLines_replaceAll hp hn r s]
  apply filter_sublist_flatMap
  intro l hl hPl
  rw [replaceAll_no_occur r (hP l hPl)]
  exact splitLines_eq_single fun c hc hcn =>
    mem_splitLines_no_newline s l hl (hcn ▸ hc)

theorem rpc_skip_line (url : List Char) :
    ∀ x y : List Char, (∀ c ∈ x, c ≠ '\n') → occursIn PAT_RPC x = false →
      replaceFirstRpc url (x ++ '\n' :: y) =
        x ++ '\n' :: replaceFirstRpc url y := by
  intro x
  induction x with
  | nil =>
    intro y _ _
    show replaceFirstRpc url ('\n' :: y) = '\n' :: replaceFirstRpc url y
    rw [replaceFirstRpc,
      if_neg (by simp [show listStartsWith PAT_RPC ('\n' :: y) = false from rfl])]
  | cons c x ih =>
    intro y hx hocc
    rw [occursIn_cons, Bool.or_eq_false_iff] at hocc
    have h2 : ¬ listStartsWith PAT_RPC (c :: (x ++ '\n' :: y)) = true := by
      intro hc
      have hlen : PAT_RPC.length ≤ (c :: x).length :=
        startsWith_length_le_of_no_newline (by decide) hc
      have := listStartsWith_of_append_le ('\n' :: y) hlen hc
      rw [hocc.1] at this
      exact Bool.noConfusion this
    rw [show (c :: x) ++ '\n' :: y = c :: (x ++ '\n' :: y) from rfl]
    rw [replaceFirstRpc, if_neg h2]
    rw [ih y (fun d hd => hx d (List.mem_cons_of_mem c hd)) hocc.2]
    rfl

theorem rpc_match_line (url : List Char) :
    ∀ x y : List Char, (∀ c ∈ x, c ≠ '\n') → occursIn PAT_RPC x = true →
      ∃ c, replaceFirstRpc url (x ++ '\n' :: y) = c ++ '\n' :: y := by
  intro x
  induction x with
  | nil =>
    intro y _ h
    exact absurd h (by decide)
  | cons a x ih =>
    intro y hx hocc
    by_cases hm : listStartsWith PAT_RPC (a :: (x ++ '\n' :: y)) = true
    · have hlen : PAT_RPC.length ≤ (a :: x).length :=
        startsWith_length_le_of_no_newline (by decide) hm
      refine ⟨PAT_RPC ++ url, ?_⟩
      rw [show (a :: x) ++ '\n' :: y = a :: (x ++ '\n' :: y) from rfl]
      rw [replaceFirstRpc, if_pos hm]
      rw [show (a :: (x ++ '\n' :: y)) = (a :: x) ++ '\n' :: y from rfl]
      rw [List.drop_append_of_le_length hlen]
      rw [List.dropWhile_append]
      have hnil : List.dropWhile (fun ch => ch ≠ '\n')
          ((a :: x).drop PAT_RPC.length) = [] := by
        rw [List.dropWhile_eq_nil_iff]
        intro d hd
        simp [hx d (List.mem_of_mem_drop hd)]
      rw [hnil]
      simp [List.dropWhile_cons]
    · have h1 : listStartsWith PAT_RPC (a :: x) = false := by
        cases hc : listStartsWith PAT_RPC (a :: x) with
        | false => rfl
        | true => exact absurd (listStartsWith_extend ('\n' :: y) hc) hm
      have hocc' : occursIn PAT_RPC x = true := by
        rw [occursIn_cons, h1, Bool.false_or] at hocc
        exact hocc
      obtain ⟨cc, hcc⟩ := ih y (fun d hd => hx d (List.mem_cons_of_mem a hd)) hocc'
      refine ⟨a :: cc, ?_⟩
      rw [show (a :: x) ++ '\n' :: y = a :: (x ++ '\n' :: y) from rfl]
      rw [replaceFirstRpc, if_neg hm, hcc]
      rfl

theorem filter_step_rpc (url : List Char) (P : List Char → Bool)
    (hP : ∀ l, P l = true → occursIn PAT_RPC l = false) (s : List Char) :
    List.Sublist ((splitLines s).filter P)
      ((splitLines (replaceFirstRpc url s)).filter P) := by
  have main : ∀ (n : Nat) (s : List Char), s.length ≤ n →
      List.Sublist ((splitLines s).filter P)
        ((splitLines (replaceFirstRpc url s)).filter P) := by
    intro n
    induction n with
    | zero =>
      intro s hs
      have : s = [] := List.eq_nil_of_length_eq_zero (by omega)
      subst this
      simp [replaceFirstRpc]
    | succ n ih =>
      intro s hs
      rcases newline_decomp s with h1 | ⟨x, y, rfl, hx⟩
      · rw [splitLines_eq_single h1]
        by_cases hPl : P s = true
        · rw [replaceFirstRpc_no_occur url (hP s hPl), splitLines_eq_single h1]
        · rw [show List.filter P [s] = [] by
            simp at hPl; simp [hPl]]
          exact List.nil_sublist _
      · have hy : y.length ≤ n := by
          simp only [List.length_append, List.length_cons] at hs
          omega
        by_cases hocc : occursIn PAT_RPC x = true
        · have hPx : P x = false := by
            cases hc : P x with
            | false => rfl
            | true =>
              rw [hP x hc] at hocc
              exact Bool.noConfusion hocc
          obtain ⟨cpre, hc⟩ := rpc_match_line url x y hx hocc
          rw [hc, splitLines_append_newline, splitLines_append_newline,
            splitLines_eq_single hx]
          rw [List.filter_append, List.filter_append]
          rw [show List.filter P [x] = [] by simp [hPx]]
          rw [List.nil_append]
          exact List.sublist_append_of_sublist_right (List.Sublist.refl _)
        · have hocc' : occursIn PAT_RPC x = false := by
            cases hc : occursIn PAT_RPC x with
            | false => rfl
            | true => exact absurd hc hocc
          rw [rpc_skip_line url x y hx hocc', splitLines_append_newline,
            splitLines_append_newline, splitLines_eq_single hx]
          rw [List.filter_append, List.filter_append]
          exact List.Sublist.append (List.Sublist.refl _) (ih y hy)
  exact main s.length s (le_refl _)

/-- Claim C4: frame property of `build_frontend` — every line of the input
environment file that contains none of the four recognized key strings
appears verbatim, and in the same relative order, among the lines of
the file written back (for every input file and every argument tuple). -/
theorem build_frontend_preserves_unrecognized_lines
    (env : List Char) (rpc_url : Option (List Char))
    (program_pubkey wall_pubkey network : List Char) :
    List.Sublist
      ((splitLines env).filter fun l =>
        !(occursIn PAT_PROGRAM l || occursIn PAT_WALL l ||
          occursIn PAT_NETWORK l || occursIn PAT_RPC l))
      (splitLines
        (build_frontend rpc_url program_pubkey wall_pubkey network env)) := by
  set P : List Char → Bool := fun l =>
    !(occursIn PAT_PROGRAM l || occursIn PAT_WALL l ||
      occursIn PAT_NETWORK l || occursIn PAT_RPC l) with hPdef
  have hsplit : ∀ l, P l = true →
      occursIn PAT_PROGRAM l = false ∧ occursIn PAT_WALL l = false ∧
      occursIn PAT_NETWORK l = false ∧ occursIn PAT_RPC l = false := by
    intro l h
    rw [hPdef] at h
    simp only [Bool.not_eq_true', Bool.or_eq_false_iff] at h
    exact ⟨h.1.1.1, h.1.1.2, h.1.2, h.2⟩
  have s1 := filter_step_replaceAll (p := PAT_PROGRAM) (by decide) (by decide)
    (PAT_PROGRAM ++ program_pubkey) P (fun l h => (hsplit l h).1) env
  have s2 := filter_step_replaceAll (p := PAT_WALL) (by decide) (by decide)
    (PAT_WALL ++ wall_pubkey) P (fun l h => (hsplit l h).2.1)
    (replaceAll PAT_PROGRAM (PAT_PROGRAM ++ program_pubkey) env)
  have s3 := filter_step_replaceAll (p := PAT_NETWORK) (by decide) (by decide)
    (PAT_NETWORK ++ network) P (fun l h => (hsplit l h).2.2.1)
    (replaceAll PAT_WALL (PAT_WALL ++ wall_pubkey)
      (replaceAll PAT_PROGRAM (PAT_PROGRAM ++ program_pubkey) env))
  have s123 := (s1.trans s2).trans s3
  cases rpc_url with
  | none =>
    exact s123.trans (List.filter_sublist _)
  | some url =>
    have s4 := filter_step_rpc url P (fun l h => (hsplit l h).2.2.2)
      (replaceAll PAT_NETWORK (PAT_NETWORK ++ network)
        (replaceAll PAT_WALL (PAT_WALL ++ wall_pubkey)
          (replaceAll PAT_PROGRAM (PAT_PROGRAM ++ program_pubkey) env)))
    exact (s123.trans s4).trans (List.filter_sublist _)

/-! Behaviour of `build_frontend` on a populated file (C10). -/

theorem startsWith_false_of_head_ne {a c : Char} (as z : List Char)
    (h : a ≠ c) : listStartsWith (a :: as) (c :: z) = false := by
  rw [listStartsWith]
  rw [show (a == c) = false from beq_eq_false_iff_ne.mpr h, Bool.false_and]

theorem PAT_PROGRAM_cons : PAT_PROGRAM = 'V' :: "ITE_PROGRAM_PUBKEY=".data := rfl

theorem PAT_WALL_cons : PAT_WALL = 'V' :: "ITE_WALL_ACCOUNT_PUBKEY=".data := rfl

theorem PAT_NETWORK_cons : PAT_NETWORK = 'V' :: "ITE_NETWORK=".data := rfl

theorem PAT_RPC_cons : PAT_RPC = 'V' :: "ITE_RPC_URL=".data := rfl

theorem replaceAll_match_head {p : List Char} (hp : p ≠ []) (r t : List Char) :
    replaceAll p r (p ++ t) = r ++ replaceAll p r t := by
  obtain ⟨a, as, rfl⟩ : ∃ a as, p = a :: as := by
    cases p with
    | nil => exact absurd rfl hp
    | cons a as => exact ⟨a, as, rfl⟩
  show replaceAll (a :: as) r (a :: (as ++ t)) = _
  rw [replaceAll_cons hp,
    if_pos (show listStartsWith (a :: as) (a :: (as ++ t)) = true from
      listStartsWith_append_self (a :: as) t)]
  rw [show (a :: as).length - 1 = as.length by simp, List.drop_left]

theorem replaceAll_skip_gen {p : List Char} (hp : p ≠ []) (r : List Char) :
    ∀ x y : List Char,
      (∀ (c : Char) (z : List Char), c ∈ x → listStartsWith p (c :: z) = false) →
      replaceAll p r (x ++ y) = x ++ replaceAll p r y := by
  intro x
  induction x with
  | nil => intro y _; simp
  | cons c x ih =>
    intro y hx
    rw [List.cons_append, replaceAll_cons hp,
      if_neg (by simp [hx c _ (List.mem_cons_self c x)])]
    rw [ih y fun d z hd => hx d z (List.mem_cons_of_mem c hd)]
    rfl

theorem skip_nonV_gen {p p' : List Char} (hpc : p = 'V' :: p') (r : List Char)
    {x : List Char} (hx : ∀ c ∈ x, c ≠ 'V') (y : List Char) :
    replaceAll p r (x ++ y) = x ++ replaceAll p r y :=
  replaceAll_skip_gen (by rw [hpc]; simp) r x y fun c z hc => by
    rw [hpc]
    exact startsWith_false_of_head_ne _ z fun he => (hx c hc) he.symm

theorem replaceAll_nonV_id {p p' : List Char} (hpc : p = 'V' :: p')
    (r : List Char) {x : List Char} (hx : ∀ c ∈ x, c ≠ 'V') :
    replaceAll p r x = x := by
  have h1 := skip_nonV_gen hpc r hx []
  simpa [replaceAll_nil] using h1

theorem skip_value_line {p p' : List Char} (hpc : p = 'V' :: p') (r : List Char)
    {v : List Char} (hv : ∀ c ∈ v, c ≠ 'V') (R : List Char) :
    replaceAll p r (v ++ '\n' :: R) = v ++ '\n' :: replaceAll p r R := by
  have h1 := skip_nonV_gen hpc r (x := v ++ ['\n']) (by
    intro c hc
    rcases List.mem_append.mp hc with h | h
    · exact hv c h
    · simp at h; subst h; decide) R
  simpa [List.append_assoc] using h1

theorem skip_keyline {p p' q q' : List Char} (hpc : p = 'V' :: p')
    (hqc : q = 'V' :: q') (hq' : ∀ c ∈ q', c ≠ 'V')
    (hfalse : ∀ t, listStartsWith p (q ++ t) = false) (r t : List Char) :
    replaceAll p r (q ++ t) = q ++ replaceAll p r t := by
  have hp : p ≠ [] := by rw [hpc]; simp
  have hfq := hfalse t
  rw [hqc, List.cons_append] at hfq ⊢
  rw [replaceAll_cons hp, if_neg (by simp [hfq])]
  rw [skip_nonV_gen hpc r hq' t]
  rfl

theorem rpc_skip_gen (url : List Char) :
    ∀ x y : List Char,
      (∀ (c : Char) (z : List Char), c ∈ x →
        listStartsWith PAT_RPC (c :: z) = false) →
      replaceFirstRpc url (x ++ y) = x ++ replaceFirstRpc url y := by
  intro x
  induction x with
  | nil => intro y _; simp
  | cons c x ih =>
    intro y hx
    rw [List.cons_append, replaceFirstRpc,
      if_neg (by simp [hx c _ (List.mem_cons_self c x)])]
    rw [ih y fun d z hd => hx d z (List.mem_cons_of_mem c hd)]
    rfl

theorem rpc_skip_nonV (url : List Char) {x : List Char}
    (hx : ∀ c ∈ x, c ≠ 'V') (y : List Char) :
    replaceFirstRpc url (x ++ y) = x ++ replaceFirstRpc url y :=
  rpc_skip_gen url x y fun c z hc => by
    rw [PAT_RPC_cons]
    exact startsWith_false_of_head_ne _ z fun he => (hx c hc) he.symm

theorem rpc_skip_value_line (url : List Char) {v : List Char}
    (hv : ∀ c ∈ v, c ≠ 'V') (R : List Char) :
    replaceFirstRpc url (v ++ '\n' :: R) = v ++ '\n' :: replaceFirstRpc url R := by
  have h1 := rpc_skip_nonV url (x := v ++ ['\n']) (by
    intro c hc
    rcases List.mem_append.mp hc with h | h
    · exact hv c h
    · simp at h; subst h; decide) R
  simpa [List.append_assoc] using h1

theorem rpc_skip_keyline {q q' : List Char} (hqc : q = 'V' :: q')
    (hq' : ∀ c ∈ q', c ≠ 'V')
    (hfalse : ∀ t, listStartsWith PAT_RPC (q ++ t) = false)
    (url t : List Char) :
    replaceFirstRpc url (q ++ t) = q ++ replaceFirstRpc url t := by
  have hfq := hfalse t
  rw [hqc, List.cons_append] at hfq ⊢
  rw [replaceFirstRpc, if_neg (by simp [hfq])]
  rw [rpc_skip_nonV url hq' t]
  rfl

theorem rpc_match_head (url t : List Char) :
    replaceFirstRpc url (PAT_RPC ++ t) =
      PAT_RPC ++ url ++ t.dropWhile fun ch => ch ≠ '\n' := by
  rw [show PAT_RPC ++ t = 'V' :: ("ITE_RPC_URL=".data ++ t) from rfl]
  rw [replaceFirstRpc,
    if_pos (show listStartsWith PAT_RPC
        ('V' :: ("ITE_RPC_URL=".data ++ t)) = true from
      listStartsWith_append_self PAT_RPC t)]
  rw [show ('V' :: ("ITE_RPC_URL=".data ++ t)) = PAT_RPC ++ t from rfl,
    List.drop_left]

theorem safeChars_noV {l : List Char} (h : safeChars l) : ∀ c ∈ l, c ≠ 'V' :=
  fun c hc => ((h c hc).1)

theorem safeChars_noNl {l : List Char} (h : safeChars l) : ∀ c ∈ l, c ≠ '\n' :=
  fun c hc => ((h c hc).2.1)

theorem safeChars_append {a b : List Char} (ha : safeChars a)
    (hb : safeChars b) : safeChars (a ++ b) := by
  intro c hc
  rcases List.mem_append.mp hc with h | h
  · exact ha c h
  · exact hb c h

theorem stage_program {v w n r add : List Char}
    (hv : ∀ c ∈ v, c ≠ 'V') (hw : ∀ c ∈ w, c ≠ 'V')
    (hn : ∀ c ∈ n, c ≠ 'V') (hr : ∀ c ∈ r, c ≠ 'V') :
    replaceAll PAT_PROGRAM (PAT_PROGRAM ++ add) (mkEnvFile v w n r) =
      mkEnvFile (add ++ v) w n r := by
  rw [mkEnvFile, mkEnvFile]
  rw [replaceAll_match_head (show PAT_PROGRAM ≠ [] by decide)]
  rw [skip_value_line PAT_PROGRAM_cons _ hv]
  rw [skip_keyline PAT_PROGRAM_cons PAT_WALL_cons (by decide) (fun t => rfl)]
  rw [skip_value_line PAT_PROGRAM_cons _ hw]
  rw [skip_keyline PAT_PROGRAM_cons PAT_NETWORK_cons (by decide) (fun t => rfl)]
  rw [skip_value_line PAT_PROGRAM_cons _ hn]
  rw [skip_keyline PAT_PROGRAM_cons PAT_RPC_cons (by decide) (fun t => rfl)]
  rw [replaceAll_nonV_id PAT_PROGRAM_cons _ hr]
  simp [List.append_assoc]

theorem stage_wall {v w n r add : List Char}
    (hv : ∀ c ∈ v, c ≠ 'V') (hw : ∀ c ∈ w, c ≠ 'V')
    (hn : ∀ c ∈ n, c ≠ 'V') (hr : ∀ c ∈ r, c ≠ 'V') :
    replaceAll PAT_WALL (PAT_WALL ++ add) (mkEnvFile v w n r) =
      mkEnvFile v (add ++ w) n r := by
  rw [mkEnvFile, mkEnvFile]
  rw [skip_keyline PAT_WALL_cons PAT_PROGRAM_cons (by decide) (fun t => rfl)]
  rw [skip_value_line PAT_WALL_cons _ hv]
  rw [replaceAll_match_head (show PAT_WALL ≠ [] by decide)]
  rw [skip_value_line PAT_WALL_cons _ hw]
  rw [skip_keyline PAT_WALL_cons PAT_NETWORK_cons (by decide) (fun t => rfl)]
  rw [skip_value_line PAT_WALL_cons _ hn]
  rw [skip_keyline PAT_WALL_cons PAT_RPC_cons (by decide) (fun t => rfl)]
  rw [replaceAll_nonV_id PAT_WALL_cons _ hr]
  simp [List.append_assoc]

theorem stage_network {v w n r add : List Char}
    (hv : ∀ c ∈ v, c ≠ 'V') (hw : ∀ c ∈ w, c ≠ 'V')
    (hn : ∀ c ∈ n, c ≠ 'V') (hr : ∀ c ∈ r, c ≠ 'V') :
    replaceAll PAT_NETWORK (PAT_NETWORK ++ add) (mkEnvFile v w n r) =
      mkEnvFile v w (add ++ n) r := by
  rw [mkEnvFile, mkEnvFile]
  rw [skip_keyline PAT_NETWORK_cons PAT_PROGRAM_cons (by decide) (fun t => rfl)]
  rw [skip_value_line PAT_NETWORK_cons _ hv]
  rw [skip_keyline PAT_NETWORK_cons PAT_WALL_cons (by decide) (fun t => rfl)]
  rw [skip_value_line PAT_NETWORK_cons _ hw]
  rw [replaceAll_match_head (show PAT_NETWORK ≠ [] by decide)]
  rw [skip_value_line PAT_NETWORK_cons _ hn]
  rw [skip_keyline PAT_NETWORK_cons PAT_RPC_cons (by decide) (fun t => rfl)]
  rw [replaceAll_nonV_id PAT_NETWORK_cons _ hr]
  simp [List.append_assoc]

theorem stage_rpc {v w n r url : List Char}
    (hv : ∀ c ∈ v, c ≠ 'V') (hw : ∀ c ∈ w, c ≠ 'V')
    (hn : ∀ c ∈ n, c ≠ 'V') (hr : ∀ c ∈ r, c ≠ '\n') :
    replaceFirstRpc url (mkEnvFile v w n r) = mkEnvFile v w n url := by
  rw [mkEnvFile, mkEnvFile]
  rw [rpc_skip_keyline PAT_PROGRAM_cons (by decide) (fun t => rfl)]
  rw [rpc_skip_value_line url hv]
  rw [rpc_skip_keyline PAT_WALL_cons (by decide) (fun t => rfl)]
  rw [rpc_skip_value_line url hw]
  rw [rpc_skip_keyline PAT_NETWORK_cons (by decide) (fun t => rfl)]
  rw [rpc_skip_value_line url hn]
  rw [rpc_match_head]
  rw [List.dropWhile_eq_nil_iff.mpr fun d hd => by simp [hr d hd]]
  simp [List.append_assoc]

theorem build_frontend_mkEnvFile {v w n r pid wall net url : List Char}
    (hv : safeChars v) (hw : safeChars w) (hn : safeChars n)
    (hr : safeChars r) (hpid : safeChars pid) (hwall : safeChars wall)
    (hnet : safeChars net) :
    build_frontend (some url) pid wall net (mkEnvFile v w n r) =
      mkEnvFile (pid ++ v) (wall ++ w) (net ++ n) url := by
  show replaceFirstRpc url
      (replaceAll PAT_NETWORK (PAT_NETWORK ++ net)
        (replaceAll PAT_WALL (PAT_WALL ++ wall)
          (replaceAll PAT_PROGRAM (PAT_PROGRAM ++ pid)
            (mkEnvFile v w n r)))) = _
  rw [stage_program (safeChars_noV hv) (safeChars_noV hw)
    (safeChars_noV hn) (safeChars_noV hr)]
  rw [stage_wall (safeChars_noV (safeChars_append hpid hv))
    (safeChars_noV hw) (safeChars_noV hn) (safeChars_noV hr)]
  rw [stage_network (safeChars_noV (safeChars_append hpid hv))
    (safeChars_noV (safeChars_append hwall hw))
    (safeChars_noV hn) (safeChars_noV hr)]
  rw [stage_rpc (safeChars_noV (safeChars_append hpid hv))
    (safeChars_noV (safeChars_append hwall hw))
    (safeChars_noV (safeChars_append hnet hn)) (safeChars_noNl hr)]

/-- Claim C10: on a file whose recognized keys are already populated,
`build_frontend` inserts the new value between the key and the old
value (`VITE_PROGRAM_PUBKEY=v` becomes `VITE_PROGRAM_PUBKEY=<pid>v`,
and likewise for the wall-account and network keys, while the RPC line
is replaced outright), so a second call with the same arguments again
modifies the three non-RPC key lines instead of being a no-op. -/
theorem build_frontend_appends_into_populated_keys
    (v w n r pid wall net url : List Char)
    (hv : safeChars v) (hw : safeChars w) (hn : safeChars n)
    (hr : safeChars r) (hpid : safeChars pid) (hwall : safeChars wall)
    (hnet : safeChars net) (hurl : safeChars url) :
    build_frontend (some url) pid wall net (mkEnvFile v w n r) =
        mkEnvFile (pid ++ v) (wall ++ w) (net ++ n) url ∧
    build_frontend (some url) pid wall net
        (mkEnvFile (pid ++ v) (wall ++ w) (net ++ n) url) =
      mkEnvFile (pid ++ (pid ++ v)) (wall ++ (wall ++ w))
        (net ++ (net ++ n)) url ∧
    (pid ≠ [] →
      mkEnvFile (pid ++ (pid ++ v)) (wall ++ (wall ++ w))
          (net ++ (net ++ n)) url ≠
        mkEnvFile (pid ++ v) (wall ++ w) (net ++ n) url) := by
  refine ⟨build_frontend_mkEnvFile hv hw hn hr hpid hwall hnet,
    build_frontend_mkEnvFile (safeChars_append hpid hv)
      (safeChars_append hwall hw) (safeChars_append hnet hn) hurl
      hpid hwall hnet, ?_⟩
  intro hne heq
  have hlen := congrArg List.length heq
  simp only [mkEnvFile, List.length_append, List.length_cons] at hlen
  have hp : 0 < pid.length := List.length_pos.mpr hne
  omega

/-- Witness for C10 at concrete populated values. -/
theorem build_frontend_appends_into_populated_keys_witness :
    build_frontend (some "u".data) "p".data "q".data "t".data
        (mkEnvFile "a".data "b".data "c".data "d".data) =
      mkEnvFile ("p".data ++ "a".data) ("q".data ++ "b".data)
        ("t".data ++ "c".data) "u".data ∧
    build_frontend (some "u".data) "p".data "q".data "t".data
        (mkEnvFile ("p".data ++ "a".data) ("q".data ++ "b".data)
          ("t".data ++ "c".data) "u".data) =
      mkEnvFile ("p".data ++ ("p".data ++ "a".data))
        ("q".data ++ ("q".data ++ "b".data))
        ("t".data ++ ("t".data ++ "c".data)) "u".data ∧
    mkEnvFile ("p".data ++ ("p".data ++ "a".data))
        ("q".data ++ ("q".data ++ "b".data))
        ("t".data ++ ("t".data ++ "c".data)) "u".data ≠
      mkEnvFile ("p".data ++ "a".data) ("q".data ++ "b".data)
        ("t".data ++ "c".data) "u".data := by
  obtain ⟨h1, h2, h3⟩ := build_frontend_appends_into_populated_keys
    "a".data "b".data "c".data "d".data "p".data "q".data "t".data "u".data
    (by decide) (by decide) (by decide) (by decide) (by decide) (by decide)
    (by decide) (by decide)
  exact ⟨h1, h2, h3 (by decide)⟩
